import Mathlib

/-!
Verification development for the Playwright ZIP viewer repository.

The repository ships two self-contained WebGL modules (`border.js` and the
drag-overlay module) whose behavior is embedded here directly from the
source.  The virtual-origin resolution layer described by the design
document (path resolver, virtual resource table, network interception,
sandbox host) has no source file in the repository snapshot; those
components are modelled from the specification text, and every definition
doing so is marked `Modelled from the spec:` in its doc comment.

Conventions: JavaScript numbers are embedded as `ℚ` (the properties proved
about them are insensitive to rounding), DOM strings as `String`, byte
payloads as `List Nat`, and event-driven handler code as explicit state
passing over a state structure.
-/

/-! ## Drag-overlay module (src/unnamed/part_000)

State and handlers of the drag-over animation overlay: `dragEnterCount`,
`isVisible`, `isDisabled`, and the `dragenter`/`dragleave`/`drop` handlers.
Fields that never feed back into these three (pan, animation frame id,
atlas) are omitted; `mouseX`/`mouseY` are kept because `handleDragEnter`
writes them before calling `show`. -/

namespace Overlay

structure OverlayState where
  isVisible : Bool
  isDisabled : Bool
  dragEnterCount : Int
  mouseX : Int
  mouseY : Int
deriving DecidableEq

/-- Initial module state: `isVisible = false`, `isDisabled = false`,
`dragEnterCount = 0`. -/
def initState : OverlayState :=
  ⟨false, false, 0, 0, 0⟩

/-- `show()` from the source: early-returns when already visible, else
marks the canvas visible (pan bookkeeping omitted, it does not feed back
into visibility, disabledness or the counter). -/
def showOverlay (s : OverlayState) : OverlayState :=
  if s.isVisible then s else { s with isVisible := true }

/-- `hide()` from the source: clears visibility unconditionally. -/
def hideOverlay (s : OverlayState) : OverlayState :=
  { s with isVisible := false }

/-- `handleDragEnter(e)` from the source: no-op when disabled; otherwise
increments `dragEnterCount` and, exactly when the incremented counter
equals 1, records the cursor position and shows the overlay. -/
def handleDragEnter (x y : Int) (s : OverlayState) : OverlayState :=
  if s.isDisabled then s
  else
    let s1 := { s with dragEnterCount := s.dragEnterCount + 1 }
    if s1.dragEnterCount = 1 then showOverlay { s1 with mouseX := x, mouseY := y }
    else s1

/-- `handleDragLeave(e)` from the source: decrements `dragEnterCount`
unconditionally and hides exactly when the decremented counter equals 0. -/
def handleDragLeave (s : OverlayState) : OverlayState :=
  let s1 := { s with dragEnterCount := s.dragEnterCount - 1 }
  if s1.dragEnterCount = 0 then hideOverlay s1 else s1

/-- `handleDrop(e)` from the source: resets `dragEnterCount` to 0 and
hides. -/
def handleDrop (s : OverlayState) : OverlayState :=
  hideOverlay { s with dragEnterCount := 0 }

/-- The three window events whose handlers touch the overlay state. -/
inductive DragEvent
  | dragenter (x y : Int)
  | dragleave
  | drop

/-- Dispatch one event to its handler. -/
def stepEvent (s : OverlayState) : DragEvent → OverlayState
  | .dragenter x y => handleDragEnter x y s
  | .dragleave => handleDragLeave s
  | .drop => handleDrop s

/-- Run a sequence of handler invocations from a starting state. -/
def runEvents (s : OverlayState) (es : List DragEvent) : OverlayState :=
  es.foldl stepEvent s

end Overlay

/-! ## Border module (src/border.js)

`buildGeometry(offset)` and the module-level values it reads.  The
character atlas, device pixel ratio, path length and the path/trig
functions are runtime data for `buildGeometry`, so they are collected in
an environment record quantified over in the theorems. -/

namespace Border

/-- `TEXT` constant from the source. -/
def TEXT : List Char := "DRAG ZIP FILE HERE ".data

/-- `FONT_SIZE` constant from the source. -/
def FONT_SIZE : ℚ := 14

/-- `LETTER_SPACING` constant from the source. -/
def LETTER_SPACING : ℚ := -1

/-- One `charData[char]` atlas record. -/
structure CharData where
  x : ℚ
  width : ℚ
  u0 : ℚ
  u1 : ℚ
  v0 : ℚ
  v1 : ℚ

/-- Result record of `getPointOnPath`. -/
structure PathPoint where
  x : ℚ
  y : ℚ
  angle : ℚ

/-- Module-level state read by `buildGeometry`: the character atlas (a
character is absent when the atlas has no entry for it), `dpr`,
`totalPathLength`, the path lookup `getPointOnPath`, and the trig
primitives `Math.cos`/`Math.sin`. -/
structure BorderEnv where
  charData : Char → Option CharData
  dpr : ℚ
  totalPathLength : ℚ
  getPointOnPath : ℚ → PathPoint
  cos : ℚ → ℚ
  sin : ℚ → ℚ

/-- `charData[char]?.width || 10`: JavaScript `||` falls back to 10 both
when the atlas entry is missing and when the stored width is the falsy
number 0. -/
def widthOrDefault (o : Option CharData) : ℚ :=
  match o with
  | none => 10
  | some cd => if cd.width = 0 then 10 else cd.width

/-- Body of the inner `for (const char of TEXT)` loop of `buildGeometry`:
state is `(charOffsetInRep, positions, texCoords)`; a character missing
from the atlas is skipped (`continue`) without advancing the offset;
otherwise six two-coordinate vertices (two triangles) are appended to each
array. -/
def charStep (env : BorderEnv) (offset repStartOffset halfHeight letterSpacingScaled : ℚ)
    (st : ℚ × List ℚ × List ℚ) (ch : Char) : ℚ × List ℚ × List ℚ :=
  match env.charData ch with
  | none => st
  | some cd =>
    let charOffsetInRep := st.1
    let charWidth := cd.width * env.dpr
    let charCenter := offset + repStartOffset + charOffsetInRep + charWidth / 2
    let point := env.getPointOnPath charCenter
    let c := env.cos point.angle
    let s := env.sin point.angle
    let hw := charWidth / 2
    let hh := halfHeight
    let c0x := point.x + (-hw) * c - (-hh) * s
    let c0y := point.y + (-hw) * s + (-hh) * c
    let c1x := point.x + hw * c - (-hh) * s
    let c1y := point.y + hw * s + (-hh) * c
    let c2x := point.x + (-hw) * c - hh * s
    let c2y := point.y + (-hw) * s + hh * c
    let c3x := point.x + hw * c - hh * s
    let c3y := point.y + hw * s + hh * c
    (charOffsetInRep + charWidth + letterSpacingScaled,
      st.2.1 ++ [c0x, c0y, c1x, c1y, c2x, c2y, c1x, c1y, c3x, c3y, c2x, c2y],
      st.2.2 ++ [cd.u0, cd.v0, cd.u1, cd.v0, cd.u0, cd.v1,
        cd.u1, cd.v0, cd.u1, cd.v1, cd.u0, cd.v1])

/-- `buildGeometry(offset)` from the source: computes the base text width
(letter spacing included), the exact repetition count
`Math.floor(totalPathLength / baseTextWidth)` (returning empty arrays when
fewer than one repetition fits), distributes the extra space between
repetitions, and pushes per-character quads for every repetition. -/
def buildGeometry (env : BorderEnv) (offset : ℚ) : List ℚ × List ℚ :=
  let letterSpacingScaled := LETTER_SPACING * env.dpr
  let baseTextWidth :=
    TEXT.foldl (fun acc ch => acc + widthOrDefault (env.charData ch) * env.dpr + letterSpacingScaled) 0
  let repetitions : Int := ⌊env.totalPathLength / baseTextWidth⌋
  if repetitions < 1 then ([], [])
  else
    let totalExtraSpace := env.totalPathLength - baseTextWidth * (repetitions : ℚ)
    let gapBetweenRepetitions := totalExtraSpace / (repetitions : ℚ)
    let halfHeight := ((FONT_SIZE + 8) / 2) * env.dpr
    (List.range repetitions.toNat).foldl
      (fun (acc : List ℚ × List ℚ) (rep : Nat) =>
        let repStartOffset := ((rep : ℚ)) * (baseTextWidth + gapBetweenRepetitions)
        let inner := TEXT.foldl
          (charStep env offset repStartOffset halfHeight letterSpacingScaled)
          (0, acc.1, acc.2)
        (inner.2.1, inner.2.2))
      ([], [])

end Border

/-! ## Virtual-origin resolution layer

The design document's core subsystem (§2–§7) has no source file in the
repository snapshot — only the two decorative modules above are present
(the document itself sizes the core against "the two decorative rendering
modules present in the material examined").  Everything in this namespace
is therefore modelled from the specification text. -/

namespace VOrigin

/-- Modelled from the spec: §4.1 — "query strings and fragments are
stripped before lookup".  Keeps the characters before the first `?` or
`#`. -/
def stripQueryFragment (r : List Char) : List Char :=
  r.takeWhile (fun c => !(c == '?' || c == '#'))

/-- Split a character list into its `/`-separated segments (empty
segments preserved; the empty list has the single empty segment). -/
def splitSegs : List Char → List (List Char)
  | [] => [[]]
  | c :: rest =>
    if c = '/' then [] :: splitSegs rest
    else
      match splitSegs rest with
      | [] => [[c]]
      | s :: ss => (c :: s) :: ss

/-- Rejoin segments with `/` separators (inverse of `splitSegs`). -/
def joinSegs : List (List Char) → List Char
  | [] => []
  | [s] => s
  | s :: ss => s ++ '/' :: joinSegs ss

/-- Render an RFC 3986 output buffer from its segment stack: empty for
the empty stack, otherwise `/` followed by the joined segments. -/
def outStr : List (List Char) → List Char
  | [] => []
  | s :: ss => '/' :: joinSegs (s :: ss)

/-- Modelled from the spec: §4.1 — hierarchical path composition: `..`
pops a segment, `.` is a no-op, every other segment is kept; a `..` at the
root is clamped (§9 recommends clamping); a final `.` or `..` leaves a
directory reference (trailing empty segment), matching the browser
algorithm the resolver is specified to reproduce. -/
def normSegs (stack : List (List Char)) : List (List Char) → List (List Char)
  | [] => stack
  | s :: rest =>
    if s = ['.'] then
      if rest = [] then stack ++ [[]] else normSegs stack rest
    else if s = ['.', '.'] then
      if rest = [] then stack.dropLast ++ [[]] else normSegs stack.dropLast rest
    else normSegs (stack ++ [s]) rest

/-- Character-level body of `resolve`. -/
def resolveChars (p r : List Char) : List Char :=
  let r0 := stripQueryFragment r
  if r0 = [] then p
  else if r0.headI = '/' then joinSegs (normSegs [] (splitSegs r0.tail))
  else joinSegs (normSegs [] ((splitSegs p).dropLast ++ splitSegs r0))

/-- Modelled from the spec: §4.1 `resolve(basePath, reference)` on the
relative-reference branch (the Path Resolver component is absent from the
source snapshot).  Query strings and fragments are stripped; a leading `/`
is archive-root-relative; otherwise the reference is resolved against the
directory of `basePath` by hierarchical composition; an empty remaining
reference (empty or fragment-only reference) denotes the base document
itself. -/
def resolve (basePath reference : String) : String :=
  String.mk (resolveChars basePath.data reference.data)

/-- A reference is relative (archive-internal shape) when no scheme colon
occurs before the first `/`, `?` or `#`. -/
def isRelativeRef (r : String) : Bool :=
  !((r.data.takeWhile (fun c => !(c == '/' || c == '?' || c == '#'))).contains ':')

/-- The prefix of `l` up to and including its last `/` (empty when `l`
has no `/`): the merge step of RFC 3986 §5.2.3. -/
def upToLastSlash (l : List Char) : List Char :=
  (l.reverse.dropWhile (fun c => !(c == '/'))).reverse

/-- Remove the last segment and its preceding `/` (if any) from an output
buffer (RFC 3986 §5.2.4, cases C). -/
def popSeg (out : List Char) : List Char :=
  (upToLastSlash out).dropLast

/-- Modelled from the spec: the loop of the reference browser resolution
algorithm, RFC 3986 §5.2.4 `remove_dot_segments`, operating on an output
buffer and an input buffer (cases A–E in order). -/
def rdsGo (out inp : List Char) : List Char :=
  if h0 : inp = [] then out
  else if h1 : inp.take 3 = ['.', '.', '/'] then rdsGo out (inp.drop 3)
  else if h2 : inp.take 2 = ['.', '/'] then rdsGo out (inp.drop 2)
  else if h3 : inp.take 3 = ['/', '.', '/'] then rdsGo out ('/' :: inp.drop 3)
  else if h4 : inp = ['/', '.'] then rdsGo out ['/']
  else if h5 : inp.take 4 = ['/', '.', '.', '/'] then rdsGo (popSeg out) ('/' :: inp.drop 4)
  else if h6 : inp = ['/', '.', '.'] then rdsGo (popSeg out) ['/']
  else if h7 : inp = ['.'] then out
  else if h8 : inp = ['.', '.'] then out
  else
    rdsGo (out ++ inp.headI :: inp.tail.takeWhile (fun c => !(c == '/')))
      (inp.tail.dropWhile (fun c => !(c == '/')))
termination_by inp.length
decreasing_by
  · have hp : 0 < inp.length := List.length_pos.mpr h0
    simp only [List.length_drop]
    omega
  · have hp : 0 < inp.length := List.length_pos.mpr h0
    simp only [List.length_drop]
    omega
  · have he := List.take_append_drop 3 inp
    rw [h3] at he
    have h3l := congrArg List.length he
    simp only [List.length_append, List.length_cons, List.length_nil, List.length_drop] at h3l
    simp only [List.length_cons, List.length_drop]
    omega
  · subst h4
    simp
  · have he := List.take_append_drop 4 inp
    rw [h5] at he
    have h5l := congrArg List.length he
    simp only [List.length_append, List.length_cons, List.length_nil, List.length_drop] at h5l
    simp only [List.length_cons, List.length_drop]
    omega
  · subst h6
    simp
  · have hp : 0 < inp.length := List.length_pos.mpr h0
    have hgen : ∀ l : List Char, (l.dropWhile (fun c => !(c == '/'))).length ≤ l.length := by
      intro l
      induction l with
      | nil => simp [List.dropWhile]
      | cons a l ih =>
        simp only [List.dropWhile]
        cases (!(a == '/')) <;> simp <;> omega
    have hd := hgen inp.tail
    simp only [List.length_tail] at hd
    omega

/-- RFC 3986 §5.2.4 entry point. -/
def removeDotSegments (inp : List Char) : List Char :=
  rdsGo [] inp

/-- Character-level body of `browserResolve`. -/
def browserResolveChars (p r : List Char) : List Char :=
  let r0 := stripQueryFragment r
  if r0 = [] then p
  else if r0.headI = '/' then (removeDotSegments r0).drop 1
  else (removeDotSegments (upToLastSlash ('/' :: p) ++ r0)).drop 1

/-- Modelled from the spec: the "reference browser URL-resolution
algorithm" the spec cross-checks `resolve` against (§8), i.e. RFC 3986
§5.2: an empty reference (after stripping query and fragment) denotes the
base document; otherwise the reference path is merged against the absolute
base path `/basePath` (all characters up to and including its last `/`)
and the merge is normalized by `remove_dot_segments`; the leading `/` of
the result is dropped to obtain the archive-relative form. -/
def browserResolve (basePath reference : String) : String :=
  String.mk (browserResolveChars basePath.data reference.data)

/-- One archive entry as produced by the external decompressor (§6). -/
structure ArchiveEntry where
  path : String
  bytes : List Nat
  contentType : String
deriving DecidableEq

/-- Modelled from the spec: §3 ResourceHandle — an in-memory stand-in
bound to one entry's bytes and content type. -/
structure ResourceHandle where
  bytes : List Nat
  contentType : String
deriving DecidableEq

/-- Conditions the table records (§7 error taxonomy, recoverable part). -/
inductive VRTEvent
  | duplicateEntry (path : String)
deriving DecidableEq

/-- Modelled from the spec: §3/§4.2 Virtual Resource Table — the mapping
from canonical archive-relative path to resource handle, the log of
recorded conditions, and the seal flag set once bulk registration is
complete. -/
structure VRT where
  entries : List (String × ResourceHandle)
  log : List VRTEvent
  sealed : Bool
deriving DecidableEq

/-- Modelled from the spec: §4.2 `lookup(canonicalPath)` — a pure read;
`none` is the NotFound outcome. -/
def VRT.lookup (t : VRT) (p : String) : Option ResourceHandle :=
  (t.entries.find? (fun e => e.1 == p)).map (fun e => e.2)

/-- Modelled from the spec: §4.2 `register(path, bytes, contentType)` —
on a sealed table the mapping is immutable; a duplicate path records a
`DuplicateEntry` condition and the later entry wins (last-write-wins, no
abort); otherwise the binding is appended. -/
def VRT.register (t : VRT) (path : String) (bytes : List Nat) (contentType : String) : VRT :=
  if t.sealed then t
  else if (t.entries.find? (fun e => e.1 == path)).isSome then
    { entries := t.entries.map (fun e => if e.1 == path then (path, ⟨bytes, contentType⟩) else e),
      log := t.log ++ [VRTEvent.duplicateEntry path],
      sealed := false }
  else
    { entries := t.entries ++ [(path, ⟨bytes, contentType⟩)],
      log := t.log,
      sealed := false }

/-- Seal the table once the archive manifest is closed (§3, §5). -/
def VRT.seal (t : VRT) : VRT :=
  { t with sealed := true }

/-- Modelled from the spec: §4.2 `release()` — frees all handles at
session end. -/
def VRT.release (t : VRT) : VRT :=
  { t with entries := [] }

/-- The empty, unsealed table. -/
def emptyVRT : VRT :=
  ⟨[], [], false⟩

/-- Bulk registration at startup: one `register` call per archive entry
(§4.2). -/
def registerAll (es : List ArchiveEntry) : VRT :=
  es.foldl (fun t e => t.register e.path e.bytes e.contentType) emptyVRT

/-- Modelled from the spec: §5 ordering — registration completes fully
and the table is sealed before anything else happens. -/
def startup (es : List ArchiveEntry) : VRT :=
  (registerAll es).seal

/-- A mounted sandbox: the sealed table it was given and the entry path. -/
structure Mounted where
  table : VRT
  entryPath : String
deriving DecidableEq

/-- Modelled from the spec: §4.5/§5 — the Sandbox Host mounts the entry
document only after `startup` has registered every entry and sealed the
table. -/
def mountReport (es : List ArchiveEntry) (entryPath : String) : Mounted :=
  ⟨startup es, entryPath⟩

/-- Outcome of an intercepted request as observed by report code: a
settled response, delegation to the real network primitive, or an
exception crossing the sandbox boundary. -/
inductive FetchOutcome
  | response (status : Nat) (body : List Nat) (contentType : String)
  | delegated (url : String)
  | thrown (message : String)
deriving DecidableEq

/-- Modelled from the spec: §4.3 — an intercepted fetch-style call:
non-relative references are delegated unmodified; a matching
archive-relative reference is served from the table with a synthesized
success status; a miss settles as a 404-equivalent response, never as an
exception. -/
def interceptedFetch (t : VRT) (basePath ref : String) : FetchOutcome :=
  if isRelativeRef ref = false then FetchOutcome.delegated ref
  else
    match t.lookup (resolve basePath ref) with
    | some h => FetchOutcome.response 200 h.bytes h.contentType
    | none => FetchOutcome.response 404 [] ("")

/-- Modelled from the spec: the hosting page's observable surface — its
document, its original network primitives, its global object (§4.5). -/
structure HostEnv where
  dom : List String
  netPrimitives : List String
  globals : List (String × Nat)
deriving DecidableEq

/-- Modelled from the spec: the sandboxed context's own surface: its
document, its InterceptionRegistry bindings, its globals and its view of
the table (§3, §4.5). -/
structure SandboxEnv where
  dom : List String
  interception : List String
  globals : List (String × Nat)
  table : VRT
deriving DecidableEq

/-- The whole browser page: hosting page plus one mounted sandbox. -/
structure World where
  host : HostEnv
  sandbox : SandboxEnv
deriving DecidableEq

/-- Mutations report code can perform inside the sandboxed context:
document mutation, patching of a network primitive, writes to the global
object. -/
inductive SandboxOp
  | mutateDom (node : String)
  | patchPrimitive (name : String)
  | setGlobal (name : String) (v : Nat)

/-- Modelled from the spec: §4.5 — every sandbox-internal mutation acts
on the sandboxed context's own surface; the interception state is scoped
to the sandboxed context only. -/
def applySandboxOp (w : World) : SandboxOp → World
  | .mutateDom n => { w with sandbox := { w.sandbox with dom := w.sandbox.dom ++ [n] } }
  | .patchPrimitive n =>
    { w with sandbox := { w.sandbox with interception := w.sandbox.interception ++ [n] } }
  | .setGlobal n v => { w with sandbox := { w.sandbox with globals := (n, v) :: w.sandbox.globals } }

/-- Run a sequence of sandbox-internal mutations. -/
def runSandbox (w : World) (ops : List SandboxOp) : World :=
  ops.foldl applySandboxOp w

/-- Resource-referencing attribute names handled by the Live DOM Patcher
(images, media, downloads — §4.4). -/
def resourceAttrNames : List String :=
  ["src", "href", "poster"]

/-- A resource-bearing element as the patcher sees it: its attributes and
whether attribute-level interception has already been installed. -/
structure DomElement where
  attrs : List (String × String)
  patched : Bool
deriving DecidableEq

/-- Modelled from the spec: §4.4 — patching an element rewrites its
resource-referencing attributes through the resolution pipeline and marks
the element, and re-patching an already-patched element is a no-op. -/
def patchElement (resolveAttr : String → String) (el : DomElement) : DomElement :=
  if el.patched then el
  else
    { attrs := el.attrs.map
        (fun kv => if resourceAttrNames.contains kv.1 then (kv.1, resolveAttr kv.2) else kv),
      patched := true }

/-- Modelled from the spec: §4.1 — the resolver as it sits in the
stateful interception pipeline: it is handed the Virtual Resource Table
but is specified to be side-effect-free and to never touch it. -/
def resolveInPipeline (t : VRT) (basePath reference : String) : String × VRT :=
  (resolve basePath reference, t)

end VOrigin

/-! ## Theorems -/

namespace VOrigin

theorem find?_map_replace (p : String) (v : ResourceHandle) :
    ∀ l : List (String × ResourceHandle),
      (l.find? (fun e => e.1 == p)).isSome = true →
      (l.map (fun e => if e.1 == p then (p, v) else e)).find? (fun e => e.1 == p) =
        some (p, v) := by
  intro l
  induction l with
  | nil => simp
  | cons a l ih =>
    intro h
    by_cases hq : a.1 = p
    · simp only [List.map_cons, hq, beq_self_eq_true, if_true]
      rw [List.find?_cons_of_pos]
      simp
    · have hb : (a.1 == p) = false := by simpa using hq
      simp only [List.map_cons, hb, Bool.false_eq_true, if_false]
      rw [List.find?_cons_of_neg _ (by simp [hb])]
      apply ih
      rw [List.find?_cons_of_neg _ (by simp [hb])] at h
      exact h

theorem find?_map_replace_ne (p q : String) (v : ResourceHandle) (hne : q ≠ p) :
    ∀ l : List (String × ResourceHandle),
      (l.map (fun e => if e.1 == p then (p, v) else e)).find? (fun e => e.1 == q) =
        l.find? (fun e => e.1 == q) := by
  intro l
  induction l with
  | nil => simp
  | cons a l ih =>
    by_cases hp : a.1 = p
    · have hb : (a.1 == q) = false := by simp [hp]; exact fun h => hne h.symm
      simp only [List.map_cons, hp, beq_self_eq_true, if_true]
      rw [List.find?_cons_of_neg _ (by simp; exact fun h => hne h.symm),
        List.find?_cons_of_neg _ (by simp [hb])]
      exact ih
    · have hb : (a.1 == p) = false := by simpa using hp
      simp only [List.map_cons, hb, Bool.false_eq_true, if_false]
      by_cases hq : a.1 = q
      · rw [List.find?_cons_of_pos _ (by simp [hq]), List.find?_cons_of_pos _ (by simp [hq])]
      · rw [List.find?_cons_of_neg _ (by simpa using hq), List.find?_cons_of_neg _ (by simpa using hq)]
        exact ih

theorem register_sealed_field (t : VRT) (p : String) (b : List Nat) (c : String) :
    (t.register p b c).sealed = t.sealed := by
  unfold VRT.register
  split_ifs with h1 h2 <;> simp_all

theorem register_lookup_self (t : VRT) (p : String) (b : List Nat) (c : String)
    (h : t.sealed = false) :
    (t.register p b c).lookup p = some ⟨b, c⟩ := by
  unfold VRT.register VRT.lookup
  simp only [h, Bool.false_eq_true, if_false]
  by_cases hf : (t.entries.find? (fun e => e.1 == p)).isSome = true
  · simp only [hf, if_true]
    rw [find?_map_replace p ⟨b, c⟩ t.entries hf]
    rfl
  · simp only [hf, Bool.false_eq_true, if_false]
    have hn : t.entries.find? (fun e => e.1 == p) = none := by
      cases hc : t.entries.find? (fun e => e.1 == p) <;> simp_all
    rw [List.find?_append, hn]
    simp [List.find?]

theorem register_lookup_other (t : VRT) (p : String) (b : List Nat) (c : String)
    (q : String) (hne : q ≠ p) :
    (t.register p b c).lookup q = t.lookup q := by
  unfold VRT.register VRT.lookup
  split_ifs with h1 h2
  · rfl
  · rw [find?_map_replace_ne p q ⟨b, c⟩ hne]
  · rw [List.find?_append]
    have hn : ([(p, (⟨b, c⟩ : ResourceHandle))].find? (fun e => e.1 == q)) = none := by
      simp
      exact fun h => hne h.symm
    rw [hn, Option.or_none]

theorem register_log_duplicate (t : VRT) (p : String) (b : List Nat) (c : String)
    (hs : t.sealed = false)
    (hsome : (t.entries.find? (fun e => e.1 == p)).isSome = true) :
    (t.register p b c).log = t.log ++ [VRTEvent.duplicateEntry p] := by
  unfold VRT.register
  simp [hs, hsome]

theorem foldl_register_preserve (p : String) :
    ∀ (es : List ArchiveEntry) (t : VRT), (∀ e ∈ es, e.path ≠ p) →
      ((es.foldl (fun t e => t.register e.path e.bytes e.contentType) t).lookup p = t.lookup p) := by
  intro es
  induction es with
  | nil => intro t _; rfl
  | cons a es ih =>
    intro t hne
    have h1 := ih (t.register a.path a.bytes a.contentType) (fun e he => hne e (List.mem_cons_of_mem a he))
    simp only [List.foldl_cons]
    rw [h1, register_lookup_other]
    intro h
    exact hne a (List.mem_cons_self a es) h.symm

theorem registerAll_go (es : List ArchiveEntry) :
    ∀ t : VRT, t.sealed = false → es.Pairwise (fun a b => a.path ≠ b.path) →
      ∀ e ∈ es, ((es.foldl (fun t e => t.register e.path e.bytes e.contentType) t).lookup e.path =
        some ⟨e.bytes, e.contentType⟩) := by
  induction es with
  | nil => intro t _ _ e he; cases he
  | cons a es ih =>
    intro t ht hp e he
    simp only [List.foldl_cons]
    rcases List.mem_cons.mp he with he1 | he2
    · subst he1
      rw [foldl_register_preserve e.path es _ (fun x hx => ((List.pairwise_cons.mp hp).1 x hx).symm)]
      exact register_lookup_self t e.path e.bytes e.contentType ht
    · exact ih (t.register a.path a.bytes a.contentType)
        (by rw [register_sealed_field]; exact ht)
        (List.pairwise_cons.mp hp).2 e he2

theorem seal_lookup (t : VRT) (p : String) : (t.seal).lookup p = t.lookup p := rfl

theorem splitSegs_ne_nil (l : List Char) : splitSegs l ≠ [] := by
  induction l with
  | nil => simp [splitSegs]
  | cons c t ih =>
    unfold splitSegs
    split_ifs
    · simp
    · cases h : splitSegs t <;> simp

theorem noslash_splitSegs (l : List Char) : ∀ s ∈ splitSegs l, '/' ∉ s := by
  induction l with
  | nil =>
    intro s hs
    simp only [splitSegs, List.mem_singleton] at hs
    simp [hs]
  | cons c t ih =>
    intro s hs
    unfold splitSegs at hs
    by_cases hc : c = '/'
    · rw [if_pos hc] at hs
      rcases List.mem_cons.mp hs with h1 | h2
      · simp [h1]
      · exact ih s h2
    · rw [if_neg hc] at hs
      cases hsp : splitSegs t with
      | nil => exact absurd hsp (splitSegs_ne_nil t)
      | cons s0 ss =>
        rw [hsp] at hs
        rcases List.mem_cons.mp hs with h1 | h2
        · subst h1
          intro hmem
          rcases List.mem_cons.mp hmem with h3 | h4
          · exact hc h3.symm
          · exact ih s0 (by rw [hsp]; exact List.mem_cons_self s0 ss) h4
        · exact ih s (by rw [hsp]; exact List.mem_cons_of_mem s0 h2)

theorem join_split (l : List Char) : joinSegs (splitSegs l) = l := by
  induction l with
  | nil => rfl
  | cons c t ih =>
    unfold splitSegs
    by_cases hc : c = '/'
    · rw [if_pos hc]
      subst hc
      cases hsp : splitSegs t with
      | nil => exact absurd hsp (splitSegs_ne_nil t)
      | cons s0 ss =>
        rw [hsp] at ih
        show joinSegs ([] :: s0 :: ss) = '/' :: t
        rw [show joinSegs ([] :: s0 :: ss) = [] ++ '/' :: joinSegs (s0 :: ss) from rfl]
        rw [ih]
        rfl
    · rw [if_neg hc]
      cases hsp : splitSegs t with
      | nil => exact absurd hsp (splitSegs_ne_nil t)
      | cons s0 ss =>
        rw [hsp] at ih
        cases ss with
        | nil =>
          show joinSegs [c :: s0] = c :: t
          have hs0 : joinSegs [s0] = t := ih
          show c :: s0 = c :: t
          rw [show s0 = joinSegs [s0] from rfl, hs0]
        | cons s1 ss1 =>
          show joinSegs ((c :: s0) :: s1 :: ss1) = c :: t
          rw [show joinSegs ((c :: s0) :: s1 :: ss1) =
            (c :: s0) ++ '/' :: joinSegs (s1 :: ss1) from rfl]
          rw [show joinSegs (s0 :: s1 :: ss1) =
            s0 ++ '/' :: joinSegs (s1 :: ss1) from rfl] at ih
          rw [← ih]
          rfl

theorem joinSegs_cons (s : List Char) (ss : List (List Char)) (h : ss ≠ []) :
    joinSegs (s :: ss) = s ++ '/' :: joinSegs ss := by
  cases ss with
  | nil => exact absurd rfl h
  | cons a t => rfl

theorem joinSegs_append (xs ys : List (List Char)) (hx : xs ≠ []) (hy : ys ≠ []) :
    joinSegs (xs ++ ys) = joinSegs xs ++ '/' :: joinSegs ys := by
  induction xs with
  | nil => exact absurd rfl hx
  | cons a xs ih =>
    cases xs with
    | nil =>
      rw [show ([a] : List (List Char)) ++ ys = a :: ys from rfl]
      rw [joinSegs_cons a ys hy]
      rfl
    | cons b xs1 =>
      have ih1 := ih (by simp)
      rw [show (a :: b :: xs1) ++ ys = a :: ((b :: xs1) ++ ys) from rfl]
      rw [joinSegs_cons a _ (by simp), ih1, joinSegs_cons a (b :: xs1) (by simp)]
      simp

theorem outStr_append (st : List (List Char)) (s : List Char) :
    outStr (st ++ [s]) = outStr st ++ '/' :: s := by
  cases st with
  | nil => rfl
  | cons a t =>
    show outStr ((a :: t) ++ [s]) = ('/' :: joinSegs (a :: t)) ++ '/' :: s
    rw [show (a :: t) ++ [s] = a :: (t ++ [s]) from rfl]
    show '/' :: joinSegs (a :: (t ++ [s])) = ('/' :: joinSegs (a :: t)) ++ '/' :: s
    rw [show a :: (t ++ [s]) = (a :: t) ++ [s] from rfl]
    rw [joinSegs_append (a :: t) [s] (by simp) (by simp)]
    rfl

theorem dropWhile_ne_nil_of_exists {p : Char → Bool} :
    ∀ l : List Char, (∃ a ∈ l, p a = false) → l.dropWhile p ≠ [] := by
  intro l
  induction l with
  | nil =>
    rintro ⟨a, ha, _⟩
    cases ha
  | cons c t ih =>
    rintro ⟨a, ha, hpa⟩
    rw [List.dropWhile_cons]
    split_ifs with hc
    · apply ih
      rcases List.mem_cons.mp ha with h1 | h2
      · subst h1
        rw [hc] at hpa
        cases hpa
      · exact ⟨a, h2, hpa⟩
    · simp

theorem upToLastSlash_append (x y : List Char) (hy : '/' ∈ y) :
    upToLastSlash (x ++ y) = x ++ upToLastSlash y := by
  unfold upToLastSlash
  rw [List.reverse_append, List.dropWhile_append]
  have hne : (y.reverse.dropWhile (fun c => !(c == '/'))) ≠ [] := by
    apply dropWhile_ne_nil_of_exists
    exact ⟨'/', by simp [hy], by simp⟩
  rw [if_neg (by simp [List.isEmpty_iff, hne])]
  rw [List.reverse_append]
  simp

theorem upToLastSlash_noslash (t : List Char) (ht : '/' ∉ t) :
    upToLastSlash ('/' :: t) = ['/'] := by
  unfold upToLastSlash
  rw [show ('/' :: t).reverse = t.reverse ++ ['/'] from by simp]
  rw [List.dropWhile_append_of_pos ?hpos]
  case hpos =>
    intro a ha
    simp only [Bool.not_eq_eq_eq_not, Bool.not_true, beq_eq_false_iff_ne, ne_eq]
    intro he
    exact ht (he ▸ List.mem_reverse.mp ha)
  simp [List.dropWhile]

theorem popSeg_outStr (stack : List (List Char)) (h : ∀ s ∈ stack, '/' ∉ s) :
    popSeg (outStr stack) = outStr stack.dropLast := by
  rcases List.eq_nil_or_concat stack with rfl | ⟨st, t, rfl⟩
  · rfl
  · rw [List.concat_eq_append, outStr_append]
    unfold popSeg
    rw [upToLastSlash_append (outStr st) ('/' :: t) (by simp)]
    rw [upToLastSlash_noslash t (h t (by simp))]
    rw [show outStr st ++ ['/'] = (outStr st).concat '/' from by simp, List.concat_eq_append,
      List.dropLast_concat, List.dropLast_concat]

theorem rdsGo_nil (out : List Char) : rdsGo out [] = out := by
  rw [rdsGo]
  simp

theorem seg_take2_ne (s t : List Char) (h1 : s ≠ ['.']) (hs : '/' ∉ s)
    (ht : t = [] ∨ ∃ u, t = '/' :: u) : ¬((s ++ t).take 2 = ['.', '/']) := by
  rcases s with _ | ⟨c1, s1⟩
  · rcases ht with rfl | ⟨u, rfl⟩ <;> simp [List.take_succ_cons]
  · rcases s1 with _ | ⟨c2, s2⟩
    · have hc1 : c1 ≠ '.' := fun he => h1 (by rw [he])
      rcases ht with rfl | ⟨u, rfl⟩
      · simp [List.take_succ_cons]
      · simp only [List.cons_append, List.nil_append, List.take_succ_cons, List.take_zero,
          List.cons.injEq]
        intro hh
        exact hc1 hh.1
    · have hc2 : c2 ≠ '/' := fun he => hs (by rw [he]; simp)
      simp only [List.cons_append, List.take_succ_cons, List.take_zero, List.cons.injEq]
      intro hh
      exact hc2 hh.2.1

theorem seg_ne_dot (s t : List Char) (h1 : s ≠ ['.']) (ht : t = [] ∨ ∃ u, t = '/' :: u) :
    ¬(s ++ t = ['.']) := by
  rcases s with _ | ⟨c1, s1⟩
  · rcases ht with rfl | ⟨u, rfl⟩ <;> simp
  · rcases s1 with _ | ⟨c2, s2⟩
    · have hc1 : c1 ≠ '.' := fun he => h1 (by rw [he])
      rcases ht with rfl | ⟨u, rfl⟩ <;> simp [hc1]
    · simp

theorem seg_take3_ne (s t : List Char) (h2 : s ≠ ['.', '.']) (hs : '/' ∉ s)
    (ht : t = [] ∨ ∃ u, t = '/' :: u) : ¬((s ++ t).take 3 = ['.', '.', '/']) := by
  rcases s with _ | ⟨c1, s1⟩
  · rcases ht with rfl | ⟨u, rfl⟩ <;> simp [List.take_succ_cons]
  · rcases s1 with _ | ⟨c2, s2⟩
    · rcases ht with rfl | ⟨u, rfl⟩
      · simp [List.take_succ_cons]
      · simp only [List.cons_append, List.nil_append, List.take_succ_cons, List.cons.injEq]
        intro hh
        exact (by simp : ('/' : Char) ≠ '.') hh.2.1
    · rcases s2 with _ | ⟨c3, s3⟩
      · have hdd : ¬(c1 = '.' ∧ c2 = '.') := fun hh => h2 (by rw [hh.1, hh.2])
        rcases ht with rfl | ⟨u, rfl⟩
        · simp [List.take_succ_cons]
        · simp only [List.cons_append, List.nil_append, List.take_succ_cons, List.take_zero,
            List.cons.injEq]
          intro hh
          exact hdd ⟨hh.1, hh.2.1⟩
      · have hc3 : c3 ≠ '/' := fun he => hs (by rw [he]; simp)
        simp only [List.cons_append, List.take_succ_cons, List.take_zero, List.cons.injEq]
        intro hh
        exact hc3 hh.2.2.1

theorem seg_ne_dotdot (s t : List Char) (h1 : s ≠ ['.']) (h2 : s ≠ ['.', '.'])
    (ht : t = [] ∨ ∃ u, t = '/' :: u) : ¬(s ++ t = ['.', '.']) := by
  rcases s with _ | ⟨c1, s1⟩
  · rcases ht with rfl | ⟨u, rfl⟩ <;> simp
  · rcases s1 with _ | ⟨c2, s2⟩
    · have hc1 : c1 ≠ '.' := fun he => h1 (by rw [he])
      rcases ht with rfl | ⟨u, rfl⟩ <;> simp [hc1]
    · rcases s2 with _ | ⟨c3, s3⟩
      · have hdd : ¬(c1 = '.' ∧ c2 = '.') := fun hh => h2 (by rw [hh.1, hh.2])
        rcases ht with rfl | ⟨u, rfl⟩
        · simp only [List.cons_append, List.nil_append, List.append_nil, List.cons.injEq,
            and_true]
          intro hh
          exact hdd hh
        · simp
      · simp

theorem rdsGo_E_core (out s t : List Char) (hs : '/' ∉ s) (h1 : s ≠ ['.'])
    (h2 : s ≠ ['.', '.']) (ht : t = [] ∨ ∃ u, t = '/' :: u) :
    rdsGo out ('/' :: (s ++ t)) = rdsGo (out ++ '/' :: s) t := by
  have hpred : ∀ a ∈ s, (fun c => !(c == '/')) a = true := by
    intro a ha
    simp only [Bool.not_eq_eq_eq_not, Bool.not_true, beq_eq_false_iff_ne, ne_eq]
    intro he
    exact hs (he ▸ ha)
  have htake : (s ++ t).takeWhile (fun c => !(c == '/')) = s := by
    rcases ht with rfl | ⟨u, rfl⟩ <;>
      rw [List.takeWhile_append_of_pos hpred] <;> simp [List.takeWhile]
  have hdrop : (s ++ t).dropWhile (fun c => !(c == '/')) = t := by
    rcases ht with rfl | ⟨u, rfl⟩ <;>
      rw [List.dropWhile_append_of_pos hpred] <;> simp [List.dropWhile]
  have c0 : ¬('/' :: (s ++ t) = []) := by simp
  have c1 : ¬(('/' :: (s ++ t)).take 3 = ['.', '.', '/']) := by simp [List.take_succ_cons]
  have c2 : ¬(('/' :: (s ++ t)).take 2 = ['.', '/']) := by simp [List.take_succ_cons]
  have c3 : ¬(('/' :: (s ++ t)).take 3 = ['/', '.', '/']) := by
    simp only [List.take_succ_cons, List.cons.injEq, true_and]
    intro hh
    exact seg_take2_ne s t h1 hs ht hh
  have c4 : ¬('/' :: (s ++ t) = ['/', '.']) := by
    simp only [List.cons.injEq, true_and]
    intro hh
    exact seg_ne_dot s t h1 ht hh
  have c5 : ¬(('/' :: (s ++ t)).take 4 = ['/', '.', '.', '/']) := by
    simp only [List.take_succ_cons, List.cons.injEq, true_and]
    intro hh
    exact seg_take3_ne s t h2 hs ht hh
  have c6 : ¬('/' :: (s ++ t) = ['/', '.', '.']) := by
    simp only [List.cons.injEq, true_and]
    intro hh
    exact seg_ne_dotdot s t h1 h2 ht hh
  have c7 : ¬('/' :: (s ++ t) = ['.']) := by simp
  have c8 : ¬('/' :: (s ++ t) = ['.', '.']) := by simp
  conv_lhs => rw [rdsGo]
  simp only [dif_neg c0, dif_neg c1, dif_neg c2, dif_neg c3, dif_neg c4, dif_neg c5,
    dif_neg c6, dif_neg c7, dif_neg c8]
  simp only [List.headI, List.tail_cons]
  rw [htake, hdrop]

theorem rdsGo_seg_last (out s : List Char) (hs : '/' ∉ s) (h1 : s ≠ ['.'])
    (h2 : s ≠ ['.', '.']) : rdsGo out ('/' :: s) = out ++ '/' :: s := by
  have h := rdsGo_E_core out s [] hs h1 h2 (Or.inl rfl)
  rw [List.append_nil] at h
  rw [h, rdsGo_nil]

theorem rdsGo_root (out : List Char) : rdsGo out ['/'] = out ++ ['/'] := by
  simpa using rdsGo_seg_last out [] (by simp) (by simp) (by simp)

theorem rdsGo_B1 (out t : List Char) :
    rdsGo out ('/' :: '.' :: '/' :: t) = rdsGo out ('/' :: t) := by
  conv_lhs => rw [rdsGo]
  simp [List.take_succ_cons, List.drop_succ_cons]

theorem rdsGo_B2 (out : List Char) : rdsGo out ['/', '.'] = rdsGo out ['/'] := by
  conv_lhs => rw [rdsGo]
  simp [List.take_succ_cons]

theorem rdsGo_C1 (out t : List Char) :
    rdsGo out ('/' :: '.' :: '.' :: '/' :: t) = rdsGo (popSeg out) ('/' :: t) := by
  conv_lhs => rw [rdsGo]
  simp [List.take_succ_cons, List.drop_succ_cons]

theorem rdsGo_C2 (out : List Char) :
    rdsGo out ['/', '.', '.'] = rdsGo (popSeg out) ['/'] := by
  conv_lhs => rw [rdsGo]
  simp [List.take_succ_cons]

theorem normSegs_ne_nil (segs : List (List Char)) :
    ∀ stack : List (List Char), segs ≠ [] → normSegs stack segs ≠ [] := by
  induction segs with
  | nil =>
    intro stack h
    exact absurd rfl h
  | cons s rest ih =>
    intro stack _
    unfold normSegs
    split_ifs with hdot hnil hdd hnil2
    · simp
    · exact ih stack hnil
    · simp
    · exact ih stack.dropLast hnil2
    · cases hrest : rest with
      | nil => simp [normSegs]
      | cons a t =>
        rw [← hrest]
        exact ih (stack ++ [s]) (by rw [hrest]; simp)

theorem outStr_drop (ns : List (List Char)) (h : ns ≠ []) :
    (outStr ns).drop 1 = joinSegs ns := by
  cases ns with
  | nil => exact absurd rfl h
  | cons a t => rfl

theorem rdsGo_normSegs (segs : List (List Char)) :
    ∀ stack : List (List Char), segs ≠ [] → (∀ s ∈ segs, '/' ∉ s) →
      (∀ s ∈ stack, '/' ∉ s) →
      rdsGo (outStr stack) ('/' :: joinSegs segs) = outStr (normSegs stack segs) := by
  induction segs with
  | nil =>
    intro stack h _ _
    exact absurd rfl h
  | cons s rest ih =>
    intro stack _ hsegs hstack
    have hsmem : '/' ∉ s := hsegs s (List.mem_cons_self s rest)
    have hrestmem : ∀ x ∈ rest, '/' ∉ x := fun x hx => hsegs x (List.mem_cons_of_mem s hx)
    by_cases hrest : rest = []
    · subst hrest
      by_cases hdot : s = ['.']
      · subst hdot
        show rdsGo (outStr stack) ['/', '.'] = outStr (normSegs stack [['.']])
        rw [rdsGo_B2, rdsGo_root]
        rw [show normSegs stack [['.']] = stack ++ [[]] from by simp [normSegs]]
        rw [outStr_append]
      · by_cases hdd : s = ['.', '.']
        · subst hdd
          show rdsGo (outStr stack) ['/', '.', '.'] = outStr (normSegs stack [['.', '.']])
          rw [rdsGo_C2, rdsGo_root, popSeg_outStr stack hstack]
          rw [show normSegs stack [['.', '.']] = stack.dropLast ++ [[]] from by simp [normSegs]]
          rw [outStr_append]
        · show rdsGo (outStr stack) ('/' :: joinSegs [s]) = outStr (normSegs stack [s])
          rw [show joinSegs [s] = s from rfl]
          rw [rdsGo_seg_last _ s hsmem hdot hdd]
          rw [show normSegs stack [s] = stack ++ [s] from by simp [normSegs, hdot, hdd]]
          rw [outStr_append]
    · rw [joinSegs_cons s rest hrest]
      by_cases hdot : s = ['.']
      · subst hdot
        show rdsGo (outStr stack) ('/' :: '.' :: '/' :: joinSegs rest) = _
        rw [rdsGo_B1]
        rw [ih stack hrest hrestmem hstack]
        rw [show normSegs stack (['.'] :: rest) = normSegs stack rest from by
          simp [normSegs, hrest]]
      · by_cases hdd : s = ['.', '.']
        · subst hdd
          show rdsGo (outStr stack) ('/' :: '.' :: '.' :: '/' :: joinSegs rest) = _
          rw [rdsGo_C1, popSeg_outStr stack hstack]
          rw [ih stack.dropLast hrest hrestmem
            (fun x hx => hstack x (List.dropLast_subset stack hx))]
          rw [show normSegs stack (['.', '.'] :: rest) = normSegs stack.dropLast rest from by
            simp [normSegs, hrest]]
        · rw [rdsGo_E_core (outStr stack) s ('/' :: joinSegs rest) hsmem hdot hdd
            (Or.inr ⟨_, rfl⟩)]
          rw [← outStr_append]
          rw [ih (stack ++ [s]) hrest hrestmem ?hns]
          case hns =>
            intro x hx
            rcases List.mem_append.mp hx with h1 | h2
            · exact hstack x h1
            · rw [List.mem_singleton.mp h2]
              exact hsmem
          rw [show normSegs stack (s :: rest) = normSegs (stack ++ [s]) rest from by
            simp [normSegs, hdot, hdd]]

theorem removeDotSegments_norm (segs : List (List Char)) (h1 : segs ≠ [])
    (h2 : ∀ s ∈ segs, '/' ∉ s) :
    removeDotSegments ('/' :: joinSegs segs) = '/' :: joinSegs (normSegs [] segs) := by
  unfold removeDotSegments
  have hmain := rdsGo_normSegs segs [] h1 h2 (by simp)
  rw [show outStr ([] : List (List Char)) = ([] : List Char) from rfl] at hmain
  rw [hmain]
  cases hn : normSegs [] segs with
  | nil => exact absurd hn (normSegs_ne_nil segs [] h1)
  | cons a t => rfl

theorem upToLastSlash_join (ps : List (List Char)) :
    (∀ s ∈ ps, '/' ∉ s) → ps ≠ [] →
      upToLastSlash ('/' :: joinSegs ps) =
        if ps.dropLast = [] then ['/'] else '/' :: (joinSegs ps.dropLast ++ ['/']) := by
  induction ps with
  | nil =>
    intro _ h
    exact absurd rfl h
  | cons s rest ih =>
    intro hns _
    by_cases hrest : rest = []
    · subst hrest
      rw [if_pos (by simp)]
      rw [show joinSegs [s] = s from rfl]
      exact upToLastSlash_noslash s (hns s (List.mem_cons_self s []))
    · rw [joinSegs_cons s rest hrest]
      rw [show ('/' :: (s ++ '/' :: joinSegs rest)) =
        ('/' :: s) ++ ('/' :: joinSegs rest) from by simp]
      rw [upToLastSlash_append ('/' :: s) ('/' :: joinSegs rest) (by simp)]
      rw [ih (fun x hx => hns x (List.mem_cons_of_mem s hx)) hrest]
      have hdl : (s :: rest).dropLast = s :: rest.dropLast := by
        cases rest with
        | nil => exact absurd rfl hrest
        | cons a t => rfl
      rw [hdl]
      by_cases hrd : rest.dropLast = []
      · rw [if_pos hrd, if_neg (by simp), hrd]
        rw [show joinSegs [s] = s from rfl]
        simp
      · rw [if_neg hrd, if_neg (by simp)]
        rw [joinSegs_cons s rest.dropLast hrd]
        simp

theorem merge_eq (p r0 : List Char) :
    upToLastSlash ('/' :: p) ++ r0 =
      '/' :: joinSegs ((splitSegs p).dropLast ++ splitSegs r0) := by
  have hps := splitSegs_ne_nil p
  have hns := noslash_splitSegs p
  conv_lhs => rw [show ('/' :: p) = '/' :: joinSegs (splitSegs p) from by rw [join_split]]
  rw [upToLastSlash_join (splitSegs p) hns hps]
  by_cases hd : (splitSegs p).dropLast = []
  · rw [if_pos hd, hd]
    rw [List.nil_append]
    rw [join_split r0]
    rfl
  · rw [if_neg hd]
    rw [joinSegs_append (splitSegs p).dropLast (splitSegs r0) hd (splitSegs_ne_nil r0)]
    rw [join_split r0]
    simp

end VOrigin

/-- C1: for every base path and every relative reference (`../` and `./`
segments, leading `/`, query strings and fragments included), `resolve`
returns exactly the canonical archive-relative path that the reference
browser URL-resolution algorithm (RFC 3986 §5.2 merge plus
`remove_dot_segments`) produces for the same pair. -/
theorem resolve_eq_browserResolve (p r : String) (h : VOrigin.isRelativeRef r = true) :
    VOrigin.resolve p r = VOrigin.browserResolve p r := by
  unfold VOrigin.resolve VOrigin.browserResolve
  congr 1
  unfold VOrigin.resolveChars VOrigin.browserResolveChars
  dsimp only
  by_cases h0 : VOrigin.stripQueryFragment r.data = []
  · simp [h0]
  · rw [if_neg h0, if_neg h0]
    by_cases hh : (VOrigin.stripQueryFragment r.data).headI = '/'
    · rw [if_pos hh, if_pos hh]
      obtain ⟨c, t, hct⟩ : ∃ c t, VOrigin.stripQueryFragment r.data = c :: t := by
        cases hq : VOrigin.stripQueryFragment r.data with
        | nil => exact absurd hq h0
        | cons c t => exact ⟨c, t, rfl⟩
      have hc : c = '/' := by
        rw [hct] at hh
        simpa [List.headI] using hh
      subst hc
      rw [hct]
      simp only [List.tail_cons]
      conv_rhs => rw [show ('/' :: t) = '/' :: VOrigin.joinSegs (VOrigin.splitSegs t) from by
        rw [VOrigin.join_split]]
      rw [VOrigin.removeDotSegments_norm (VOrigin.splitSegs t) (VOrigin.splitSegs_ne_nil t)
        (VOrigin.noslash_splitSegs t)]
      rfl
    · rw [if_neg hh, if_neg hh]
      rw [VOrigin.merge_eq p.data (VOrigin.stripQueryFragment r.data)]
      have hsegs_ne : (VOrigin.splitSegs p.data).dropLast ++
          VOrigin.splitSegs (VOrigin.stripQueryFragment r.data) ≠ [] := by
        intro hc
        exact VOrigin.splitSegs_ne_nil (VOrigin.stripQueryFragment r.data)
          (List.append_eq_nil.mp hc).2
      have hsegs_ns : ∀ s ∈ (VOrigin.splitSegs p.data).dropLast ++
          VOrigin.splitSegs (VOrigin.stripQueryFragment r.data), '/' ∉ s := by
        intro s hsm
        rcases List.mem_append.mp hsm with h1 | h2
        · exact VOrigin.noslash_splitSegs p.data s (List.dropLast_subset _ h1)
        · exact VOrigin.noslash_splitSegs _ s h2
      rw [VOrigin.removeDotSegments_norm _ hsegs_ne hsegs_ns]
      rfl

theorem resolve_eq_browserResolve_witness :
    VOrigin.isRelativeRef ("../img/./logo.png?v=2") = true ∧
      VOrigin.resolve ("reports/sub/index.html") ("../img/./logo.png?v=2") =
        VOrigin.browserResolve ("reports/sub/index.html") ("../img/./logo.png?v=2") ∧
      VOrigin.resolve ("reports/sub/index.html") ("../img/./logo.png?v=2") =
        ("reports/img/logo.png") :=
  ⟨by decide, resolve_eq_browserResolve _ _ (by decide), by decide⟩

/-- C2: round-trip fidelity — for an archive (whose entries, per the §3
data model, have pairwise-distinct paths), every entry registered during
bulk registration is returned by `lookup` on the sealed table with
byte-identical payload and the registered content type. -/
theorem vrt_roundtrip (es : List VOrigin.ArchiveEntry)
    (hdist : es.Pairwise (fun a b => a.path ≠ b.path)) :
    ∀ e ∈ es, (VOrigin.startup es).lookup e.path =
      some ⟨e.bytes, e.contentType⟩ := by
  intro e he
  unfold VOrigin.startup VOrigin.registerAll
  rw [VOrigin.seal_lookup]
  exact VOrigin.registerAll_go es VOrigin.emptyVRT rfl hdist e he

theorem vrt_roundtrip_witness :
    ([⟨("index.html"), [60, 104], ("text/html")⟩,
        ⟨("app.js"), [99], ("text/javascript")⟩] : List VOrigin.ArchiveEntry).Pairwise
        (fun a b => a.path ≠ b.path) ∧
      (VOrigin.startup
          [⟨("index.html"), [60, 104], ("text/html")⟩,
            ⟨("app.js"), [99], ("text/javascript")⟩]).lookup ("index.html") =
        some ⟨[60, 104], ("text/html")⟩ :=
  ⟨by decide,
    vrt_roundtrip
      [⟨("index.html"), [60, 104], ("text/html")⟩, ⟨("app.js"), [99], ("text/javascript")⟩]
      (by decide)
      ⟨("index.html"), [60, 104], ("text/html")⟩
      (by decide)⟩

/-- C4: registering the same canonical path twice records a
`DuplicateEntry` condition in the log (no abort) and the later entry wins:
looking the path up afterwards returns the second registration's bytes and
content type. -/
theorem register_duplicate_last_wins (t : VOrigin.VRT) (p : String)
    (b1 : List Nat) (c1 : String) (b2 : List Nat) (c2 : String)
    (h : t.sealed = false) :
    VOrigin.VRTEvent.duplicateEntry p ∈ (((t.register p b1 c1).register p b2 c2)).log ∧
      ((t.register p b1 c1).register p b2 c2).lookup p = some ⟨b2, c2⟩ := by
  have h1 : (t.register p b1 c1).sealed = false := by
    rw [VOrigin.register_sealed_field]; exact h
  have hsome : ((t.register p b1 c1).entries.find? (fun e => e.1 == p)).isSome = true := by
    have hx := VOrigin.register_lookup_self t p b1 c1 h
    unfold VOrigin.VRT.lookup at hx
    cases hc : (t.register p b1 c1).entries.find? (fun e => e.1 == p) <;> simp_all
  constructor
  · rw [VOrigin.register_log_duplicate _ p b2 c2 h1 hsome]
    simp
  · exact VOrigin.register_lookup_self _ p b2 c2 h1

theorem register_duplicate_last_wins_witness :
    VOrigin.emptyVRT.sealed = false ∧
      (VOrigin.VRTEvent.duplicateEntry ("Logo.png") ∈
        ((VOrigin.emptyVRT.register ("Logo.png") [1] ("image/png")).register
          ("Logo.png") [2] ("image/png")).log ∧
      ((VOrigin.emptyVRT.register ("Logo.png") [1] ("image/png")).register
          ("Logo.png") [2] ("image/png")).lookup ("Logo.png") = some ⟨[2], ("image/png")⟩) :=
  ⟨rfl, register_duplicate_last_wins VOrigin.emptyVRT ("Logo.png") [1] ("image/png")
    [2] ("image/png") rfl⟩

/-- C6: the sealed-table invariant — during bulk registration `register`
never removes a registered path (append-only domain), a sealed table is
immutable under `register`, and the Sandbox Host mounts only the table
produced by `startup`, which is sealed, so the mapping cannot change once
report code can run. -/
theorem vrt_sealed_before_mount :
    (∀ (t : VOrigin.VRT) (p : String) (b : List Nat) (c q : String),
        t.sealed = false → (t.lookup q).isSome = true →
          ((t.register p b c).lookup q).isSome = true) ∧
      (∀ (t : VOrigin.VRT) (p : String) (b : List Nat) (c : String),
        t.sealed = true → t.register p b c = t) ∧
      (∀ (es : List VOrigin.ArchiveEntry) (entryPath : String),
        (VOrigin.mountReport es entryPath).table.sealed = true) := by
  refine ⟨?_, ?_, ?_⟩
  · intro t p b c q hs hq
    by_cases hpq : q = p
    · subst hpq
      rw [VOrigin.register_lookup_self t q b c hs]
      rfl
    · rw [VOrigin.register_lookup_other t p b c q hpq]
      exact hq
  · intro t p b c hs
    unfold VOrigin.VRT.register
    simp [hs]
  · intro es ep
    rfl

theorem vrt_sealed_before_mount_witness :
    (((VOrigin.emptyVRT.register ("a.png") [7] ("image/png")).register ("b.png") [8]
        ("image/png")).lookup ("a.png")).isSome = true ∧
      VOrigin.emptyVRT.seal.register ("b.png") [8] ("image/png") = VOrigin.emptyVRT.seal ∧
      (VOrigin.mountReport [] ("index.html")).table.sealed = true :=
  ⟨vrt_sealed_before_mount.1 _ ("b.png") [8] ("image/png") ("a.png") (by decide) (by decide),
    vrt_sealed_before_mount.2.1 _ ("b.png") [8] ("image/png") (by decide),
    vrt_sealed_before_mount.2.2 [] ("index.html")⟩

/-- C3: an intercepted fetch never settles as an exception crossing the
sandbox boundary, and when the reference resolves to an archive-relative
path with no matching table entry it settles as the 404-equivalent
missing-resource response. -/
theorem interceptedFetch_no_throw (t : VOrigin.VRT) (basePath ref : String) :
    (∀ msg, VOrigin.interceptedFetch t basePath ref ≠ VOrigin.FetchOutcome.thrown msg) ∧
      (VOrigin.isRelativeRef ref = true →
        t.lookup (VOrigin.resolve basePath ref) = none →
        VOrigin.interceptedFetch t basePath ref = VOrigin.FetchOutcome.response 404 [] ("")) := by
  constructor
  · intro msg
    unfold VOrigin.interceptedFetch
    split_ifs
    · simp
    · cases t.lookup (VOrigin.resolve basePath ref) <;> simp
  · intro hrel hnone
    unfold VOrigin.interceptedFetch
    simp [hrel, hnone]

theorem interceptedFetch_no_throw_witness :
    VOrigin.interceptedFetch VOrigin.emptyVRT ("index.html") ("./missing.js") =
        VOrigin.FetchOutcome.response 404 [] ("") ∧
      ∀ msg, VOrigin.interceptedFetch VOrigin.emptyVRT ("index.html") ("./missing.js") ≠
        VOrigin.FetchOutcome.thrown msg :=
  ⟨(interceptedFetch_no_throw VOrigin.emptyVRT ("index.html") ("./missing.js")).2
      (by decide) rfl,
    (interceptedFetch_no_throw VOrigin.emptyVRT ("index.html") ("./missing.js")).1⟩

/-- C5: isolation invariant — for every mounted world and every sequence
of mutations performed inside the sandboxed context, the hosting page's
document, network primitives and global object are unchanged. -/
theorem sandbox_isolation (w : VOrigin.World) (ops : List VOrigin.SandboxOp) :
    (VOrigin.runSandbox w ops).host = w.host := by
  induction ops generalizing w with
  | nil => rfl
  | cons op ops ih =>
    show (VOrigin.runSandbox (VOrigin.applySandboxOp w op) ops).host = w.host
    rw [ih]
    cases op <;> rfl

/-- C7: patching idempotence — applying the Live DOM Patcher's
attribute-level interception twice yields exactly the element that one
application yields (hence identical observable resolution behavior), and
re-patching an already-patched element is a no-op. -/
theorem patchElement_idempotent (f : String → String) (el : VOrigin.DomElement) :
    VOrigin.patchElement f (VOrigin.patchElement f el) = VOrigin.patchElement f el ∧
      (el.patched = true → VOrigin.patchElement f el = el) := by
  constructor
  · by_cases h : el.patched <;> simp [VOrigin.patchElement, h]
  · intro h
    simp [VOrigin.patchElement, h]

theorem patchElement_idempotent_witness :
    (⟨[(("src"), ("img/a.png"))], true⟩ : VOrigin.DomElement).patched = true ∧
      VOrigin.patchElement (fun s => s)
          (⟨[(("src"), ("img/a.png"))], true⟩ : VOrigin.DomElement) =
        (⟨[(("src"), ("img/a.png"))], true⟩ : VOrigin.DomElement) :=
  ⟨rfl, (patchElement_idempotent (fun s => s) _).2 rfl⟩

/-- C8: resolver purity — in the stateful interception pipeline the
resolver's result is the same for any two invocations with the same
`(basePath, reference)` pair whatever the Virtual Resource Table holds,
and the table it was handed is returned untouched. -/
theorem resolver_pure (t1 t2 : VOrigin.VRT) (basePath reference : String) :
    (VOrigin.resolveInPipeline t1 basePath reference).1 =
        (VOrigin.resolveInPipeline t2 basePath reference).1 ∧
      (VOrigin.resolveInPipeline t1 basePath reference).2 = t1 :=
  ⟨rfl, rfl⟩

/-- A fold preserves any invariant its step preserves. -/
theorem foldl_preserves {α β : Type} (P : β → Prop) (f : β → α → β)
    (hf : ∀ b a, P b → P (f b a)) :
    ∀ (l : List α) (b : β), P b → P (l.foldl f b) := by
  intro l
  induction l with
  | nil => intro b hb; exact hb
  | cons a l ih => intro b hb; exact ih (f b a) (hf b a hb)

theorem charStep_preserves (env : Border.BorderEnv) (offset rso hh lss : ℚ)
    (st : ℚ × List ℚ × List ℚ) (ch : Char)
    (h : st.2.1.length = st.2.2.length ∧ st.2.1.length % 12 = 0) :
    ((Border.charStep env offset rso hh lss st ch).2.1.length =
        (Border.charStep env offset rso hh lss st ch).2.2.length ∧
      (Border.charStep env offset rso hh lss st ch).2.1.length % 12 = 0) := by
  unfold Border.charStep
  cases env.charData ch with
  | none => exact h
  | some cd =>
    simp only [List.length_append, List.length_cons, List.length_nil]
    obtain ⟨h1, h2⟩ := h
    constructor
    · omega
    · omega

theorem overlay_step_inv (s : Overlay.OverlayState) (e : Overlay.DragEvent)
    (hd : s.isDisabled = false)
    (hv : s.isVisible = true ↔ 1 ≤ s.dragEnterCount) :
    (Overlay.stepEvent s e).isDisabled = false ∧
      ((Overlay.stepEvent s e).isVisible = true ↔ 1 ≤ (Overlay.stepEvent s e).dragEnterCount) := by
  cases e with
  | dragenter x y =>
    simp only [Overlay.stepEvent, Overlay.handleDragEnter, Overlay.showOverlay, hd,
      Bool.false_eq_true, if_false]
    split_ifs <;> simp_all <;> omega
  | dragleave =>
    simp only [Overlay.stepEvent, Overlay.handleDragLeave, Overlay.hideOverlay]
    split_ifs <;> simp_all <;> omega
  | drop =>
    simp [Overlay.stepEvent, Overlay.handleDrop, Overlay.hideOverlay, hd]

theorem overlay_run_inv (es : List Overlay.DragEvent) (s : Overlay.OverlayState)
    (hd : s.isDisabled = false)
    (hv : s.isVisible = true ↔ 1 ≤ s.dragEnterCount) :
    (Overlay.runEvents s es).isDisabled = false ∧
      ((Overlay.runEvents s es).isVisible = true ↔ 1 ≤ (Overlay.runEvents s es).dragEnterCount) := by
  induction es generalizing s with
  | nil => exact ⟨hd, hv⟩
  | cons e es ih =>
    obtain ⟨hd1, hv1⟩ := overlay_step_inv s e hd hv
    exact ih (Overlay.stepEvent s e) hd1 hv1

/-- C9 (counterexample): the claim as stated is false on the code: a
single `dragleave` invocation from the initial state drives
`dragEnterCount` to −1, so the counter does become negative. -/
theorem overlay_count_goes_negative :
    (Overlay.runEvents Overlay.initState [Overlay.DragEvent.dragleave]).dragEnterCount < 0 := by
  decide

/-- C9 (amended): starting from the initial state, after any sequence of
`dragenter`, `dragleave` and `drop` handler invocations the overlay is
visible iff `dragEnterCount ≥ 1` and it is not disabled; the counter can,
however, become negative when `dragleave` events outnumber `dragenter`
events. -/
theorem overlay_visible_iff (es : List Overlay.DragEvent) :
    (Overlay.runEvents Overlay.initState es).isVisible = true ↔
      (1 ≤ (Overlay.runEvents Overlay.initState es).dragEnterCount ∧
        (Overlay.runEvents Overlay.initState es).isDisabled = false) := by
  have h := overlay_run_inv es Overlay.initState rfl (by simp [Overlay.initState])
  rw [h.2, h.1]
  simp

/-- C10: for every module environment (any character atlas, device pixel
ratio, path length, path and trig functions) and every offset,
`buildGeometry` returns `positions` and `texCoords` of equal length, and
that length is a multiple of 12 — six two-coordinate vertices per rendered
character — including when atlas-missing characters are skipped. -/
theorem buildGeometry_lengths (env : Border.BorderEnv) (offset : ℚ) :
    (Border.buildGeometry env offset).1.length = (Border.buildGeometry env offset).2.length ∧
      (Border.buildGeometry env offset).1.length % 12 = 0 := by
  suffices H : ∀ pr : List ℚ × List ℚ, Border.buildGeometry env offset = pr →
      pr.1.length = pr.2.length ∧ pr.1.length % 12 = 0 from H _ rfl
  intro pr h
  unfold Border.buildGeometry at h
  dsimp only at h
  split at h
  · rw [← h]
    simp
  · rw [← h]
    apply foldl_preserves
      (P := fun (acc : List ℚ × List ℚ) => acc.1.length = acc.2.length ∧ acc.1.length % 12 = 0)
    · intro b a hb
      exact foldl_preserves
        (P := fun (st : ℚ × List ℚ × List ℚ) => st.2.1.length = st.2.2.length ∧ st.2.1.length % 12 = 0)
        _ (fun st ch hst => charStep_preserves env offset _ _ _ st ch hst)
        Border.TEXT (0, b.1, b.2) hb
    · exact ⟨rfl, rfl⟩
